import Mathlib

set_option maxHeartbeats 1000000

/-!
Shallow embedding of `src/purchased-parts/dk_pipeline.py` (Digi-Key purchase
reconciliation pipeline) and proofs of the frozen specification claims.

JSON scalar values that the pipeline copies verbatim (identifiers, part
numbers, formatted quantities and prices) are modelled as `Option String`:
`none` models a missing key (Python `dict.get` returning `None`), `some s`
models a present value.  Lists model JSON arrays (a missing array key and an
empty array behave identically everywhere in the source, both via
`.get(k, [])` and via `or []`).
-/

/-! ## Python string helpers -/

/-- Python `a or b` on strings: `b` when `a` is falsy (empty), else `a`. -/
def pyOr (a b : String) : String := if a = "" then b else a

/-- Python `str.lower()` (character-wise lowercasing). -/
def lowerStr (s : String) : String := String.mk (s.data.map Char.toLower)

/-- Whitespace stripped by Python `str.strip()` (ASCII fragment). -/
def isPySpace (c : Char) : Bool :=
  c == ' ' || c == '\t' || c == '\n' || c == '\r' || c == '\x0b' || c == '\x0c'

/-- Python `str.strip()`: drop leading and trailing whitespace. -/
def trimChars (l : List Char) : List Char :=
  ((l.dropWhile isPySpace).reverse.dropWhile isPySpace).reverse

/-- Python `pat in s` substring containment. -/
def containsSub (pat : List Char) : List Char → Bool
  | [] => pat.isPrefixOf []
  | c :: cs => pat.isPrefixOf (c :: cs) || containsSub pat cs

/-- Python `s[s.index(pat):]`: the suffix starting at the first occurrence of
`pat` (callers only use it when `pat in s` holds; on no occurrence it
returns `[]`). -/
def dropToSub (pat : List Char) : List Char → List Char
  | [] => []
  | c :: cs => if pat.isPrefixOf (c :: cs) then c :: cs else dropToSub pat cs

/-- Fuelled worker for `replaceSub`; the fuel is an upper bound on the number
of characters still to be scanned, so `replaceSub` below never exhausts it. -/
def replaceSubFuel (pat rep : List Char) : Nat → List Char → List Char
  | 0, s => s
  | _ + 1, [] => []
  | fuel + 1, c :: cs =>
    if pat ≠ [] ∧ pat.isPrefixOf (c :: cs) then
      rep ++ replaceSubFuel pat rep fuel (List.drop (pat.length - 1) cs)
    else
      c :: replaceSubFuel pat rep fuel cs

/-- Python `s.replace(pat, rep)`: replace non-overlapping occurrences left to
right, never rescanning replaced text (for non-empty `pat`). -/
def replaceSub (pat rep s : List Char) : List Char :=
  replaceSubFuel pat rep s.length s

/-- Removal of every registered-trademark glyph from a character list. -/
def removeReg (l : List Char) : List Char := l.filter (fun c => c != '®')

/-! ## Data model: invoice documents -/

/-- One entry of an order's `invoiceDetails` array (the fields the pipeline
reads). -/
structure Detail where
  invoiceId : Option String
  detailId : Option String
  digiKeyProductNumber : Option String
  manufacturerProductNumber : Option String
  quantityShipped : Option String
  extendedPrice : Option String
  description : Option String
  manufacturerName : Option String
  formattedUnitPrice : Option String
  formattedExtendedPrice : Option String
  quantityInitial : Option String
deriving DecidableEq

/-- One entry of an order's `invoices` array (invoice header). -/
structure Invoice where
  invoiceId : Option String
  dateShipped : Option String
deriving DecidableEq

/-- One order of an invoice document. -/
structure Order where
  invoices : List Invoice
  invoiceDetails : List Detail
deriving DecidableEq

/-- Line-item identity key: `(invoiceId, detailId)` when both are present,
else the 5-field fallback tuple.  Distinct constructors mirror the fact that
a Python 2-tuple never equals a 5-tuple. -/
inductive DetailKey where
  | primary (invId detId : String)
  | fallback (invId dk mfr qty ext : Option String)
deriving DecidableEq

/-- The dedup/identity key of one invoice detail (`iter_detail_keys` body and
the identical computation in `build_rows`). -/
def detailKey (d : Detail) : DetailKey :=
  match d.invoiceId, d.detailId with
  | some i, some t => DetailKey.primary i t
  | _, _ =>
    DetailKey.fallback d.invoiceId d.digiKeyProductNumber
      d.manufacturerProductNumber d.quantityShipped d.extendedPrice

/-- `iter_detail_keys`: one key per detail per order, in document order. -/
def iter_detail_keys : List Order → List DetailKey
  | [] => []
  | o :: doc => o.invoiceDetails.map detailKey ++ iter_detail_keys doc

/-! ## Data model: product documents -/

/-- A node of the (unbounded-depth) category tree. -/
inductive Category where
  | mk (name : Option String) (childCategories : List Category)

/-- Name stored at a category node. -/
def Category.name : Category → Option String
  | Category.mk n _ => n

/-- Children stored at a category node. -/
def Category.childCategories : Category → List Category
  | Category.mk _ cs => cs

/-- One entry of a product's `productVariations` array.  `packageTypeName`
models `(v.get("packageType") or {}).get("name", "")` flattened to the name
value (absent object, null object and absent name all behave as `none`). -/
structure Variation where
  digiKeyProductNumber : Option String
  packageTypeName : Option String

/-- One entry of a product's `parameters` array. -/
structure Parameter where
  parameterText : Option String
  valueText : Option String

/-- A product record (the fields the pipeline reads).  `seriesName` and
`productStatus` model `(prod.get("series") or {}).get("name","")` and
`(prod.get("productStatus") or {}).get("status","")` flattened to the inner
value. -/
structure Product where
  category : Option Category
  productVariations : List Variation
  parameters : List Parameter
  seriesName : Option String
  productStatus : Option String

/-- Truthy vendor part number keys of a variation list, in order. -/
def variationKeysAux : List Variation → List String
  | [] => []
  | v :: vs =>
    match v.digiKeyProductNumber with
    | some dk => if dk = "" then variationKeysAux vs else dk :: variationKeysAux vs
    | none => variationKeysAux vs

/-- Per-product variation keys of `iter_prod_dk_keys`: one key per variation
with a truthy (present and non-empty) vendor part number. -/
def variationKeys (p : Product) : List String :=
  variationKeysAux p.productVariations

/-- `iter_prod_dk_keys`: all vendor part number keys of a product document. -/
def iter_prod_dk_keys : List Product → List String
  | [] => []
  | p :: ps => variationKeys p ++ iter_prod_dk_keys ps

/-! ## Product lookup with base precedence (`build_prod_by_dk`) -/

/-- Processing of one variation of the `build_prod_by_dk` inner loop
(`if dk and dk not in lut: lut[dk] = p`). -/
def insertOne (p : Product) (lut : List (String × Product)) (v : Variation) :
    List (String × Product) :=
  match v.digiKeyProductNumber with
  | some dk =>
    if dk = "" then lut
    else
      match lut.lookup dk with
      | some _ => lut
      | none => lut ++ [(dk, p)]
  | none => lut

/-- Insert the (key, product) pairs of one product's variations into the
lookup, left to right. -/
def insertVariationsAux (p : Product) : List Variation → List (String × Product) →
    List (String × Product)
  | [], lut => lut
  | v :: vs, lut => insertVariationsAux p vs (insertOne p lut v)

/-- Processing of one product of the `build_prod_by_dk` loops. -/
def insertVariations (p : Product) (lut : List (String × Product)) :
    List (String × Product) :=
  insertVariationsAux p p.productVariations lut

/-- One of the two `build_prod_by_dk` loops: insert every product of a list. -/
def buildLutAux : List Product → List (String × Product) → List (String × Product)
  | [], lut => lut
  | p :: ps, lut => buildLutAux ps (insertVariations p lut)

/-- `build_prod_by_dk`: iterate base first, then delta, inserting only absent
keys — base precedence by insertion order. -/
def build_prod_by_dk (products_base products_delta : List Product) :
    List (String × Product) :=
  buildLutAux products_delta (buildLutAux products_base [])

/-! ## Product-derived row fields -/

/-- `category_t2`: first child category's name (falling back through Python
`or` to the top-level name when the child's name is falsy), else the
top-level name, else empty. -/
def category_t2 (prod : Option Product) : String :=
  match prod with
  | none => ""
  | some p =>
    match p.category with
    | none => ""
    | some cat =>
      match cat.childCategories with
      | [] => cat.name.getD ""
      | child :: _ => pyOr (child.name.getD "") (cat.name.getD "")

/-- Preorder walk of a category forest collecting every node's name
(`walk` inside `is_mcu_product`). -/
def catNamesList : List Category → List String
  | [] => []
  | Category.mk n cs :: rest => n.getD "" :: (catNamesList cs ++ catNamesList rest)

/-- Names of the category tree of a product (`walk(prod.get("category"))`). -/
def collectCatNames : Option Category → List String
  | none => []
  | some c => catNamesList [c]

/-- `is_mcu_product`: some name in the category tree, lowercased and joined,
contains "microcontroller". -/
def is_mcu_product (prod : Option Product) : Bool :=
  match prod with
  | none => false
  | some p =>
    let s := String.intercalate " " ((collectCatNames p.category).map lowerStr)
    containsSub "microcontroller".toList s.toList ||
      containsSub "application specific microcontrollers".toList s.toList

/-- Lookup in the `params` dict of `extract_mcu_fields`
(`{prm.get("parameterText",""): prm.get("valueText","")}`): the last
parameter with the given name wins; missing name or value default to "". -/
def paramsGet (ps : List Parameter) (k : String) : String :=
  match ps.reverse.find? (fun prm => prm.parameterText.getD "" == k) with
  | some prm => prm.valueText.getD ""
  | none => ""

/-- The four MCU fields of a row. -/
structure McuFields where
  core_processor : String
  core_type : String
  clock_speed : String
  program_memory_size : String
deriving DecidableEq

/-- `MCU_PROMOTED_PARAM_TEXTS`. -/
def MCU_PROMOTED_PARAM_TEXTS : List String :=
  ["Core Processor", "Core Size", "Speed", "Program Memory Size"]

/-- `extract_mcu_fields`. -/
def extract_mcu_fields (prod : Product) : McuFields :=
  let params := prod.parameters
  let core_processor := paramsGet params "Core Processor"
  let clock_speed := paramsGet params "Speed"
  let program_memory_size := paramsGet params "Program Memory Size"
  let core_size := paramsGet params "Core Size"
  let cp := core_processor
  let core_type :=
    if containsSub "Cortex".toList cp.toList then
      String.mk (trimChars (replaceSub "®".toList []
        (replaceSub "Cortex®".toList "Cortex".toList
          (dropToSub "Cortex".toList cp.toList))))
    else if containsSub "AVR".toList cp.toList then "AVR"
    else pyOr core_size cp
  ⟨core_processor, core_type, clock_speed, program_memory_size⟩

/-- Python dict assignment `out[k] = v`: replace in place if the key exists,
else append. -/
def upsert (l : List (String × String)) (k v : String) : List (String × String) :=
  match l with
  | [] => [(k, v)]
  | (k', v') :: t => if k' = k then (k', v) :: t else (k', v') :: upsert t k v

/-- Processing of one parameter of the `build_other_params_dict` loop: skip
MCU-promoted names, otherwise assign into the dict. -/
def otherParamsStep (out : List (String × String)) (prm : Parameter) :
    List (String × String) :=
  let k := prm.parameterText.getD ""
  if k ∈ MCU_PROMOTED_PARAM_TEXTS then out
  else upsert out k (prm.valueText.getD "")

/-- The `build_other_params_dict` loop over the parameter list. -/
def otherParamsAux : List Parameter → List (String × String) → List (String × String)
  | [], out => out
  | prm :: ps, out => otherParamsAux ps (otherParamsStep out prm)

/-- `build_other_params_dict`: every parameter except the MCU-promoted names,
as an insertion-ordered dict (also standing for its JSON dump
`other_parameters`, which is determined by it). -/
def build_other_params_dict (prod : Option Product) : List (String × String) :=
  match prod with
  | none => []
  | some p => otherParamsAux p.parameters []

/-- Package type of the variation whose vendor part number equals the row's
(first match in variation order, else empty). -/
def packageTypeOf (p : Product) (dk : String) : String :=
  match p.productVariations.find? (fun v => v.digiKeyProductNumber == some dk) with
  | some v => v.packageTypeName.getD ""
  | none => ""

/-! ## Row projection (`build_rows`) -/

/-- One projected output row.  `other_dict` carries both the internal
`_other_dict` and the `other_parameters` JSON blob it serialises to. -/
structure Row where
  detail_key : DetailKey
  is_new : Bool
  qty_bought : String
  description : String
  category : String
  dk_pn : String
  mfr_pn : String
  mfr : String
  qty_shipped : String
  gbp_unit_price : String
  gbp_ext_price : String
  invoice_id : String
  date_shipped : String
  series : String
  product_status : String
  package_type : String
  core_processor : String
  core_type : String
  clock_speed : String
  program_memory_size : String
  other_dict : List (String × String)
deriving DecidableEq

/-- `inv_by_id.get(inv_id)`: the dict comprehension keeps the last invoice
per id, so look up in reverse. -/
def findInv (invs : List Invoice) (i : Option String) : Option Invoice :=
  invs.reverse.find? (fun inv => inv.invoiceId == i)

/-- The row `build_rows` emits for one detail (with the `_is_new` flag
already decided by the caller). -/
def mkRow (lut : List (String × Product)) (invs : List Invoice) (isNew : Bool)
    (d : Detail) : Row :=
  let key := detailKey d
  let dk := d.digiKeyProductNumber.getD ""
  let prod := lut.lookup dk
  let mcu : McuFields :=
    match prod with
    | some p => if is_mcu_product (some p) then extract_mcu_fields p else ⟨"", "", "", ""⟩
    | none => ⟨"", "", "", ""⟩
  { detail_key := key
    is_new := isNew
    qty_bought := d.quantityInitial.getD ""
    description := d.description.getD ""
    category := category_t2 prod
    dk_pn := dk
    mfr_pn := d.manufacturerProductNumber.getD ""
    mfr := d.manufacturerName.getD ""
    qty_shipped := d.quantityShipped.getD ""
    gbp_unit_price := d.formattedUnitPrice.getD ""
    gbp_ext_price := d.formattedExtendedPrice.getD ""
    invoice_id := d.invoiceId.getD ""
    date_shipped :=
      match findInv invs d.invoiceId with
      | some inv => inv.dateShipped.getD ""
      | none => ""
    series := match prod with | some p => p.seriesName.getD "" | none => ""
    product_status := match prod with | some p => p.productStatus.getD "" | none => ""
    package_type := match prod with | some p => packageTypeOf p dk | none => ""
    core_processor := mcu.core_processor
    core_type := mcu.core_type
    clock_speed := mcu.clock_speed
    program_memory_size := mcu.program_memory_size
    other_dict := build_other_params_dict prod }

/-- State threaded by `build_rows`: the `seen` key set and the rows so far. -/
structure BRState where
  seen : List DetailKey
  rows : List Row
deriving DecidableEq

/-- Processing of one invoice detail: dedup on the identity key, then emit a
row flagged new iff the key is in the caller-supplied new-key set. -/
def processDetail (lut : List (String × Product)) (invs : List Invoice)
    (nk : List DetailKey) (st : BRState) (d : Detail) : BRState :=
  let key := detailKey d
  if key ∈ st.seen then st
  else ⟨st.seen ++ [key], st.rows ++ [mkRow lut invs (decide (key ∈ nk)) d]⟩

/-- Processing of the details of one order, left to right. -/
def processDetails (lut : List (String × Product)) (invs : List Invoice)
    (nk : List DetailKey) : BRState → List Detail → BRState
  | st, [] => st
  | st, d :: ds => processDetails lut invs nk (processDetail lut invs nk st d) ds

/-- Processing of one order. -/
def processOrder (lut : List (String × Product)) (nk : List DetailKey)
    (st : BRState) (o : Order) : BRState :=
  processDetails lut o.invoices nk st o.invoiceDetails

/-- The outer order loop of `build_rows`. -/
def buildRowsAux (lut : List (String × Product)) (nk : List DetailKey) :
    BRState → List Order → BRState
  | st, [] => st
  | st, o :: doc => buildRowsAux lut nk (processOrder lut nk st o) doc

/-- `build_rows` (a `new_detail_keys` of `[]` models Python `None`: both make
every `_is_new` false). -/
def build_rows (doc : List Order) (lut : List (String × Product))
    (nk : List DetailKey) : List Row :=
  (buildRowsAux lut nk ⟨[], []⟩ doc).rows

/-- The delta-only identity keys `delta_detail_keys - base_detail_keys`
(as a list; only membership and the induced finite set matter). -/
def delta_only_keys (base delta : List Order) : List DetailKey :=
  (iter_detail_keys delta).filter (fun k => decide (k ∉ iter_detail_keys base))

/-! ## Invariant verifier and pipeline runner -/

/-- The stable output columns of a row (the `FUTURE_FULL_SCHEMA` projection;
`other_parameters` is represented by the dict it serialises). -/
def stableCols (r : Row) : List String × List (String × String) :=
  ([r.description, r.category, r.dk_pn, r.mfr_pn, r.mfr, r.qty_shipped,
    r.gbp_unit_price, r.gbp_ext_price, r.invoice_id, r.date_shipped, r.series,
    r.product_status, r.package_type, r.core_processor, r.core_type,
    r.clock_speed, r.program_memory_size], r.other_dict)

/-- Assert B of `run_pipeline`: identical key sets, and for every base key
every stable column matches (values here are total strings, so the
`fillna("")` normalisation is the identity). -/
def checkB (baseRows mergedOld : List Row) : Bool :=
  baseRows.all (fun r => mergedOld.any (fun r2 => r2.detail_key == r.detail_key)) &&
  mergedOld.all (fun r => baseRows.any (fun r2 => r2.detail_key == r.detail_key)) &&
  baseRows.all (fun r =>
    match mergedOld.find? (fun r2 => r2.detail_key == r.detail_key) with
    | some r2 => decide (stableCols r2 = stableCols r)
    | none => false)

/-- Assert C of `run_pipeline`: every new row with a non-empty
`core_processor` has at least one MCU column non-empty. -/
def checkC (merged : List Row) : Bool :=
  (merged.filter (fun r => r.is_new && r.core_processor != "")).all
    (fun r => r.core_processor != "" || r.core_type != "" ||
      r.clock_speed != "" || r.program_memory_size != "")

/-- The input documents of one pipeline run (after discovery and parsing). -/
structure PipelineInputs where
  invoices_base : List Order
  invoices_delta : List Order
  products_base : List Product
  products_delta : List Product

/-- Product lookup of the run (step 3). -/
def pipeline_lut (inp : PipelineInputs) : List (String × Product) :=
  build_prod_by_dk inp.products_base inp.products_delta

/-- Base-only row rebuild of the run (step 4). -/
def pipeline_base_rows (inp : PipelineInputs) : List Row :=
  build_rows inp.invoices_base (pipeline_lut inp) []

/-- Merged row build of the run (step 4). -/
def pipeline_merged_rows (inp : PipelineInputs) : List Row :=
  build_rows (inp.invoices_base ++ inp.invoices_delta) (pipeline_lut inp)
    (delta_only_keys inp.invoices_base inp.invoices_delta)

/-- Assert A of `run_pipeline`: as many rows flagged new as delta-only keys. -/
def checkA (inp : PipelineInputs) : Bool :=
  decide (((pipeline_merged_rows inp).filter (fun r => r.is_new)).length =
    (delta_only_keys inp.invoices_base inp.invoices_delta).toFinset.card)

/-- The five output files, in the order step 10 writes them. -/
def OUTPUT_FILES : List String :=
  ["merged_products_out.json", "merged_invoices_out.json",
   "updated_full_future_schema.csv", "updated_mini.csv",
   "new_purchases_enriched.csv"]

/-- `run_pipeline` reduced to its verification-relevant skeleton: the three
asserts run in order before the write step; the result is the list of files
written plus the abort message, if any. -/
def run_pipeline (inp : PipelineInputs) : List String × Option String :=
  if ¬ checkA inp then ([], some "New row count mismatch")
  else if ¬ checkB (pipeline_base_rows inp)
      ((pipeline_merged_rows inp).filter (fun r => !r.is_new)) then
    ([], some "Assert B failed")
  else if ¬ checkC (pipeline_merged_rows inp) then
    ([], some "Some newly-added MCU rows have all MCU fields empty")
  else (OUTPUT_FILES, none)

/-! ## Document classifier (`_classify_json_doc`) -/

/-- A parsed JSON value (the shape information the classifier inspects). -/
inductive Json where
  | null
  | bool (b : Bool)
  | num (n : Int)
  | str (s : String)
  | arr (items : List Json)
  | obj (fields : List (String × Json))

/-- Python `k in dict`. -/
def hasKey (fields : List (String × Json)) (k : String) : Bool :=
  fields.any (fun f => f.1 == k)

/-- `_classify_json_doc`: invoice markers first, then product markers, on the
first element of a non-empty list of objects. -/
def classify_json_doc (doc : Json) : String :=
  match doc with
  | Json.arr (Json.obj fields :: _) =>
    if hasKey fields "invoiceDetails" || hasKey fields "invoices" ||
        hasKey fields "boxes" then "invoice"
    else if hasKey fields "productVariations" || hasKey fields "parameters" then
      "product"
    else "unknown"
  | _ => "unknown"

/-! ## JSON base/delta discovery (`discover_json_base_delta`) -/

/-- One candidate JSON file of a kind: its position in the directory listing
(standing for the path, used as the final sort tie-break), its byte size, and
the identity-key set of its parsed document. -/
structure Cand (κ : Type) where
  pathId : Nat
  size : Nat
  keys : Finset κ
deriving DecidableEq

/-- `overlap`: size of the intersection with the delta's key set. -/
def overlapCard {κ : Type} [DecidableEq κ] (dkeys : Finset κ) (c : Cand κ) : Nat :=
  (c.keys ∩ dkeys).card

/-- `sorted(paths, key=_file_size)[0]` and the remaining candidates: extract
the first size-minimal element (stable ties), keeping the rest in order. -/
def extractMinSize {κ : Type} : Cand κ → List (Cand κ) → Cand κ × List (Cand κ)
  | c, [] => (c, [])
  | c, x :: xs =>
    if x.size < c.size then
      let r := extractMinSize x xs
      (r.1, c :: r.2)
    else
      let r := extractMinSize c xs
      (r.1, x :: r.2)

/-- Strict order of the scored tuples `(overlap(p), -_file_size(p), p)`. -/
def baseLt {κ : Type} [DecidableEq κ] (dkeys : Finset κ) (a b : Cand κ) : Bool :=
  decide (overlapCard dkeys a < overlapCard dkeys b ∨
    (overlapCard dkeys a = overlapCard dkeys b ∧
      (b.size < a.size ∨ (a.size = b.size ∧ a.pathId < b.pathId))))

/-- `scored.sort(); base = scored[0][2]`: the tuple-minimal candidate. -/
def pickBase {κ : Type} [DecidableEq κ] (dkeys : Finset κ) (c : Cand κ)
    (cs : List (Cand κ)) : Cand κ :=
  cs.foldl (fun acc x => if baseLt dkeys x acc then x else acc) c

/-- `discover_json_base_delta` for one kind with at least two files: the
smallest file is delta; the base is the scored minimum among the rest.  The
`[]` branch of the inner match is unreachable (the rest of `extractMinSize`
on a non-empty list is non-empty). -/
def discover_json_base_delta {κ : Type} [DecidableEq κ] (c1 c2 : Cand κ)
    (rest : List (Cand κ)) : Cand κ × Cand κ :=
  let p := extractMinSize c1 (c2 :: rest)
  match p.2 with
  | [] => (p.1, p.1)
  | b :: bs => (pickBase p.1.keys b bs, p.1)

/-! ## CSV pair discovery (`discover_csv_pair`) -/

/-- One readable CSV candidate: directory position, byte size, column count
of the header, and row count (lines minus header). -/
structure CsvInfo where
  pathId : Nat
  size : Nat
  ncols : Nat
  nrows : Nat
deriving DecidableEq

/-- Strict order of `sorted(info, key=lambda x: (x[2], x[1]))`. -/
def csvMiniLt (a b : CsvInfo) : Bool :=
  decide (a.ncols < b.ncols ∨ (a.ncols = b.ncols ∧ a.size < b.size))

/-- `mini = sorted(info, key=(ncols, size))[0]` (stable: first among ties). -/
def pickCsvMini (c : CsvInfo) (cs : List CsvInfo) : CsvInfo :=
  cs.foldl (fun acc x => if csvMiniLt x acc then x else acc) c

/-- Strict order of `sorted(full_candidates, key=lambda x: (-x[1], -x[2]))`. -/
def csvFullGt (a b : CsvInfo) : Bool :=
  decide (b.size < a.size ∨ (a.size = b.size ∧ b.ncols < a.ncols))

/-- `full = sorted(full_candidates, key=(-size, -ncols))[0]`. -/
def pickCsvFull (c : CsvInfo) (cs : List CsvInfo) : CsvInfo :=
  cs.foldl (fun acc x => if csvFullGt x acc then x else acc) c

/-- `sorted(info, key=size)[0]` (first among size ties). -/
def pickSmallest (c : CsvInfo) (cs : List CsvInfo) : CsvInfo :=
  cs.foldl (fun acc x => if x.size < acc.size then x else acc) c

/-- `sorted(info, key=size)[-1]` (last among size ties). -/
def pickLargestLast (c : CsvInfo) (cs : List CsvInfo) : CsvInfo :=
  cs.foldl (fun acc x => if acc.size ≤ x.size then x else acc) c

/-- The row-count-match filter producing `full_candidates`. -/
def csvFullCandidates (mini : CsvInfo) (info : List CsvInfo) : List CsvInfo :=
  info.filter (fun x => decide (x.nrows = mini.nrows ∧ mini.ncols < x.ncols))

/-- `discover_csv_pair` on a non-empty readable-info list, returning
`(full, mini)`. -/
def discover_csv_pair (c : CsvInfo) (cs : List CsvInfo) : CsvInfo × CsvInfo :=
  let mini := pickCsvMini c cs
  match csvFullCandidates mini (c :: cs) with
  | q :: qs => (pickCsvFull q qs, mini)
  | [] => (pickLargestLast c cs, pickSmallest c cs)

/-! ## Spec-side definitions (used to state refinement claims) -/

/-- Spec reading of the `core_type` derivation: substring from "Cortex"
onward with registered-trademark glyphs removed and whitespace trimmed; else
"AVR"; else the "Core Size" parameter if non-empty; else the raw
"Core Processor" value (which is the empty string when the parameter is
absent). -/
def coreTypeSpec (p : Product) : String :=
  let cp := paramsGet p.parameters "Core Processor"
  if containsSub "Cortex".toList cp.toList then
    String.mk (trimChars (removeReg (dropToSub "Cortex".toList cp.toList)))
  else if containsSub "AVR".toList cp.toList then "AVR"
  else if paramsGet p.parameters "Core Size" ≠ "" then paramsGet p.parameters "Core Size"
  else cp

/-- Amended spec reading of the category field: the first child's name when
children exist and that name is non-empty, falling back to the top-level
name when it is empty; the top-level name when there are no children; empty
when there is no category (or no product). -/
def categoryAmendedSpec (prod : Option Product) : String :=
  match prod with
  | none => ""
  | some p =>
    match p.category with
    | none => ""
    | some cat =>
      match cat.childCategories with
      | [] => cat.name.getD ""
      | child :: _ =>
        if child.name.getD "" = "" then cat.name.getD "" else child.name.getD ""

/-- The value the other-parameters blob is expected to hold for a
non-promoted parameter name: the value text of the last parameter with that
name, if any. -/
def lastParamValue (prod : Option Product) (k : String) : Option String :=
  match prod with
  | none => none
  | some p =>
    (p.parameters.reverse.find? (fun prm => prm.parameterText.getD "" == k)).map
      (fun prm => prm.valueText.getD "")

/-- Invariant of the `build_rows` fold state: the seen set is exactly the
set of emitted row keys, and row keys are pairwise distinct. -/
def InvBR (st : BRState) : Prop :=
  (∀ k, k ∈ st.seen ↔ ∃ r ∈ st.rows, r.detail_key = k) ∧
    (st.rows.map (fun r => r.detail_key)).Nodup

/-! ## Concrete inputs used by counterexamples and witnesses -/

/-- A product that is not MCU-classified (no category at all) but carries a
parameter named "Core Processor". -/
def exProdPlain : Product :=
  { category := none
    productVariations := [⟨some "P1", some "Tray"⟩]
    parameters := [⟨some "Core Processor", some "ARM"⟩, ⟨some "Resistance", some "10k"⟩]
    seriesName := none
    productStatus := none }

/-- A detail referencing `exProdPlain`. -/
def exDetailC1 : Detail :=
  { invoiceId := some "I1", detailId := some "D1", digiKeyProductNumber := some "P1"
    manufacturerProductNumber := some "M1", quantityShipped := some "5"
    extendedPrice := some "10", description := some "part", manufacturerName := some "ST"
    formattedUnitPrice := some "£2", formattedExtendedPrice := some "£10"
    quantityInitial := some "5" }

/-- An order holding `exDetailC1`. -/
def exOrderC1 : Order :=
  { invoices := [⟨some "I1", some "2024-01-01"⟩], invoiceDetails := [exDetailC1] }

/-- Product lookup mapping `exDetailC1`'s part number to `exProdPlain`. -/
def exLutC1 : List (String × Product) := [("P1", exProdPlain)]

/-- A category whose first child has an empty name. -/
def exCatC7 : Category := Category.mk (some "Top") [Category.mk (some "") []]

/-- A product carrying `exCatC7`. -/
def exProdC7 : Product :=
  { category := some exCatC7, productVariations := [], parameters := []
    seriesName := none, productStatus := none }

/-- An MCU-classified product with a Cortex core processor parameter. -/
def exProdMcu : Product :=
  { category := some (Category.mk (some "Microcontrollers") [])
    productVariations := [⟨some "P1", some "Tray"⟩]
    parameters := [⟨some "Core Processor", some " ARM® Cortex®-M4 "⟩,
                   ⟨some "Speed", some "64MHz"⟩]
    seriesName := some "S"
    productStatus := some "Active" }

/-- Fields of a JSON object carrying both an invoice marker and a product
marker. -/
def exFieldsC10 : List (String × Json) :=
  [("invoiceDetails", Json.null), ("productVariations", Json.null)]

/-- A base product owning part number "PN1". -/
def exBaseProdC4 : Product :=
  { category := none, productVariations := [⟨some "PN1", none⟩]
    parameters := [], seriesName := some "base-series", productStatus := none }

/-- A delta product supplying a different record under the same key "PN1". -/
def exDeltaProdC4 : Product :=
  { category := none, productVariations := [⟨some "PN1", none⟩]
    parameters := [], seriesName := some "delta-series", productStatus := none }

/-- Concrete JSON candidates for the base/delta selector witness. -/
def exCandA : Cand Nat := { pathId := 0, size := 50, keys := {1, 2, 3} }

/-- Second candidate (smallest: becomes delta). -/
def exCandB : Cand Nat := { pathId := 1, size := 10, keys := {1, 2} }

/-- Third candidate, overlapping the delta more than `exCandA` does. -/
def exCandC : Cand Nat := { pathId := 2, size := 70, keys := {1, 2, 9} }

/-- Concrete CSV info records for the pair-selector witness. -/
def exCsvFull : CsvInfo := { pathId := 0, size := 1000, ncols := 18, nrows := 40 }

/-- The matching mini CSV (same row count, fewer columns, smaller). -/
def exCsvMini : CsvInfo := { pathId := 1, size := 100, ncols := 4, nrows := 40 }

/-! ## Lemmas about list prefixes and Python replace -/

theorem isPrefixOf_iff_exists : ∀ (p l : List Char), p.isPrefixOf l = true ↔ ∃ t, l = p ++ t := by
  intro p
  induction p with
  | nil => intro l; simp [List.isPrefixOf]
  | cons a as ih =>
    intro l
    cases l with
    | nil =>
      simp [List.isPrefixOf]
    | cons b bs =>
      simp only [List.isPrefixOf, Bool.and_eq_true, beq_iff_eq, ih bs, List.cons_append,
        List.cons.injEq]
      constructor
      · rintro ⟨rfl, t, rfl⟩
        exact ⟨t, rfl, rfl⟩
      · rintro ⟨t, rfl, rfl⟩
        exact ⟨rfl, t, rfl⟩

theorem replaceSubFuel_single_nil (c : Char) :
    ∀ (fuel : Nat) (s : List Char), s.length ≤ fuel →
      replaceSubFuel [c] [] fuel s = s.filter (fun x => x != c) := by
  intro fuel
  induction fuel with
  | zero =>
    intro s hs
    have hnil : s = [] := List.eq_nil_of_length_eq_zero (Nat.le_zero.mp hs)
    subst hnil
    rfl
  | succ n ih =>
    intro s hs
    match s with
    | [] => rfl
    | x :: xs =>
      by_cases hcx : c = x
      · subst hcx
        have hcond : ([c] : List Char) ≠ [] ∧ List.isPrefixOf [c] (c :: xs) = true := by
          refine ⟨by simp, ?_⟩
          simp [List.isPrefixOf]
        simp only [replaceSubFuel, if_pos hcond, List.length_cons, List.filter_cons]
        have : (c != c) = false := by simp
        rw [this]
        simp only [List.nil_append, List.length_singleton, Nat.sub_self, List.drop_zero]
        exact ih xs (Nat.le_of_succ_le_succ hs)
      · have hcond : ¬ (([c] : List Char) ≠ [] ∧ List.isPrefixOf [c] (x :: xs) = true) := by
          rintro ⟨-, hpre⟩
          simp [List.isPrefixOf] at hpre
          exact hcx hpre
        simp only [replaceSubFuel, if_neg hcond, List.filter_cons]
        have hxc : (x != c) = true := by
          simp only [bne_iff_ne, ne_eq]
          exact fun h => hcx h.symm
        rw [hxc, ih xs (Nat.le_of_succ_le_succ hs)]
        simp

theorem replaceSub_reg_removeReg (s : List Char) :
    replaceSub "®".toList [] s = removeReg s := by
  show replaceSubFuel ['®'] [] s.length s = removeReg s
  exact replaceSubFuel_single_nil '®' s.length s (Nat.le_refl _)

theorem removeReg_replaceSubFuel_cortex :
    ∀ (fuel : Nat) (s : List Char), s.length ≤ fuel →
      removeReg (replaceSubFuel "Cortex®".toList "Cortex".toList fuel s) = removeReg s := by
  intro fuel
  induction fuel with
  | zero =>
    intro s hs
    have hnil : s = [] := List.eq_nil_of_length_eq_zero (Nat.le_zero.mp hs)
    subst hnil
    rfl
  | succ n ih =>
    intro s hs
    match s with
    | [] => rfl
    | x :: xs =>
      by_cases hp : ("Cortex®".toList ≠ [] ∧ List.isPrefixOf "Cortex®".toList (x :: xs) = true)
      · obtain ⟨t, ht⟩ := (isPrefixOf_iff_exists _ _).mp hp.2
        have hx : x = 'C' := by
          have := ht
          simp only [show "Cortex®".toList = 'C' :: "ortex®".toList from rfl,
            List.cons_append, List.cons.injEq] at this
          exact this.1
        have hxs : xs = "ortex®".toList ++ t := by
          have := ht
          simp only [show "Cortex®".toList = 'C' :: "ortex®".toList from rfl,
            List.cons_append, List.cons.injEq] at this
          exact this.2
        have hdrop : List.drop ("Cortex®".toList.length - 1) xs = t := by
          rw [hxs]
          show List.drop ("ortex®".toList.length) ("ortex®".toList ++ t) = t
          exact List.drop_left _ _
        have hlen : t.length ≤ n := by
          have h1 : xs.length ≤ n := Nat.le_of_succ_le_succ hs
          rw [hxs, List.length_append] at h1
          omega
        simp only [replaceSubFuel, if_pos hp, hdrop]
        rw [ht]
        show removeReg ("Cortex".toList ++ _) = removeReg ("Cortex®".toList ++ t)
        simp only [removeReg, List.filter_append]
        rw [show List.filter (fun c => c != '®') "Cortex".toList = "Cortex".toList from rfl,
          show List.filter (fun c => c != '®') "Cortex®".toList = "Cortex".toList from rfl]
        rw [show List.filter (fun c => c != '®') (replaceSubFuel "Cortex®".toList "Cortex".toList n t) = removeReg (replaceSubFuel "Cortex®".toList "Cortex".toList n t) from rfl]
        rw [ih t hlen]
        rfl
      · simp only [replaceSubFuel, if_neg hp]
        simp only [removeReg, List.filter_cons]
        have hx := ih xs (Nat.le_of_succ_le_succ hs)
        simp only [removeReg] at hx
        rw [hx]

theorem replace_reg_pair (s : List Char) :
    replaceSub "®".toList []
      (replaceSub "Cortex®".toList "Cortex".toList s) = removeReg s := by
  rw [replaceSub_reg_removeReg]
  show removeReg (replaceSubFuel "Cortex®".toList "Cortex".toList s.length s) = removeReg s
  exact removeReg_replaceSubFuel_cortex s.length s (Nat.le_refl _)

/-- C8: for every MCU-classified product, `core_type` is derived from the
"Core Processor" parameter as the spec states: the substring from "Cortex"
onward with registered-trademark glyphs removed and whitespace trimmed when
it contains "Cortex"; else the literal "AVR" when it contains "AVR"; else
the "Core Size" parameter when non-empty, else the raw value, else empty. -/
theorem C8_core_type_spec (p : Product) (h : is_mcu_product (some p) = true) :
    (extract_mcu_fields p).core_type = coreTypeSpec p := by
  simp only [extract_mcu_fields, coreTypeSpec, replace_reg_pair, pyOr]
  split_ifs with h1 h2 h3 h4 <;> first | rfl | (exfalso; omega) | simp_all

theorem C8_witness :
    is_mcu_product (some exProdMcu) = true ∧
    (extract_mcu_fields exProdMcu).core_type = coreTypeSpec exProdMcu := by
  have h : is_mcu_product (some exProdMcu) = true := by
    simp only [is_mcu_product, exProdMcu, collectCatNames, catNamesList]
    decide
  exact ⟨h, C8_core_type_spec exProdMcu h⟩

/-- C7 counterexample: a product whose category has a non-empty child list
whose first child's name is the empty string; the projected category field
is the top-level name "Top", not the first child's name "". -/
theorem C7_category_counterexample :
    (exCatC7.childCategories.map (fun c => c.name)) = [some ""] ∧
    category_t2 (some exProdC7) = "Top" := by
  decide

/-- C7 amended: the category field is the first child's name when children
exist and that name is non-empty, falling back to the top-level name when
the first child's name is empty; the top-level name when there are no
children; empty when there is no category or no product. -/
theorem C7_category_amended (prod : Option Product) :
    category_t2 prod = categoryAmendedSpec prod := by
  cases prod with
  | none => rfl
  | some p =>
    cases hc : p.category with
    | none => simp [category_t2, categoryAmendedSpec, hc]
    | some cat =>
      cases hcc : cat.childCategories with
      | nil => simp [category_t2, categoryAmendedSpec, hc, hcc]
      | cons child rest => simp [category_t2, categoryAmendedSpec, hc, hcc, pyOr]

/-- C10: a document that is a non-empty list whose first element carries
both an invoice marker and a product marker is classified "invoice" — the
invoice check takes precedence. -/
theorem C10_classifier_invoice_precedence (fields : List (String × Json)) (rest : List Json)
    (hinv : (hasKey fields "invoiceDetails" || hasKey fields "invoices" ||
      hasKey fields "boxes") = true)
    (hprod : (hasKey fields "productVariations" || hasKey fields "parameters") = true) :
    classify_json_doc (Json.arr (Json.obj fields :: rest)) = "invoice" := by
  simp [classify_json_doc, hinv]

theorem C10_witness :
    ((hasKey exFieldsC10 "invoiceDetails" || hasKey exFieldsC10 "invoices" ||
      hasKey exFieldsC10 "boxes") = true) ∧
    ((hasKey exFieldsC10 "productVariations" || hasKey exFieldsC10 "parameters") = true) ∧
    classify_json_doc (Json.arr (Json.obj exFieldsC10 :: [])) = "invoice" :=
  ⟨by decide, by decide,
    C10_classifier_invoice_precedence exFieldsC10 [] (by decide) (by decide)⟩

/-! ## Association list lemmas -/

theorem lookup_append {β : Type} (l₁ l₂ : List (String × β)) (a : String) :
    (l₁ ++ l₂).lookup a =
      match l₁.lookup a with
      | some b => some b
      | none => l₂.lookup a := by
  induction l₁ with
  | nil => simp [List.lookup]
  | cons p t ih =>
    obtain ⟨k, v⟩ := p
    by_cases h : a = k
    · subst h; simp [List.lookup]
    · simp only [List.cons_append, List.lookup, beq_eq_false_iff_ne.mpr h]
      exact ih

theorem find?_append_some {α : Type} (p : α → Bool) :
    ∀ (l₁ l₂ : List α) (b : α), l₁.find? p = some b → (l₁ ++ l₂).find? p = some b := by
  intro l₁
  induction l₁ with
  | nil => intro l₂ b h; simp [List.find?] at h
  | cons a t ih =>
    intro l₂ b h
    by_cases hp : p a
    · rw [List.find?_cons_of_pos _ hp] at h
      simpa [List.find?_cons_of_pos _ hp] using h
    · rw [List.find?_cons_of_neg _ (by simpa using hp)] at h
      rw [List.cons_append, List.find?_cons_of_neg _ (by simpa using hp)]
      exact ih l₂ b h

theorem find?_append_none {α : Type} (p : α → Bool) :
    ∀ (l₁ l₂ : List α), l₁.find? p = none → (l₁ ++ l₂).find? p = l₂.find? p := by
  intro l₁
  induction l₁ with
  | nil => intro l₂ _; simp
  | cons a t ih =>
    intro l₂ h
    by_cases hp : p a
    · rw [List.find?_cons_of_pos _ hp] at h; exact absurd h (by simp)
    · rw [List.find?_cons_of_neg _ (by simpa using hp)] at h
      rw [List.cons_append, List.find?_cons_of_neg _ (by simpa using hp)]
      exact ih l₂ h

theorem lookup_upsert_self (l : List (String × String)) (k v : String) :
    (upsert l k v).lookup k = some v := by
  induction l with
  | nil => simp [upsert, List.lookup]
  | cons p t ih =>
    obtain ⟨k', v'⟩ := p
    by_cases h : k' = k
    · subst h; simp [upsert, List.lookup]
    · simp only [upsert, if_neg h, List.lookup, beq_eq_false_iff_ne.mpr (Ne.symm h)]
      exact ih

theorem lookup_upsert_other (l : List (String × String)) (k v k' : String) (h : k' ≠ k) :
    (upsert l k v).lookup k' = l.lookup k' := by
  induction l with
  | nil => simp [upsert, List.lookup, beq_eq_false_iff_ne.mpr h]
  | cons p t ih =>
    obtain ⟨k₀, v₀⟩ := p
    by_cases h0 : k₀ = k
    · subst h0
      simp only [upsert, if_pos rfl, List.lookup, beq_eq_false_iff_ne.mpr h]
    · simp only [upsert, if_neg h0, List.lookup]
      cases hb : (k' == k₀) with
      | true => rfl
      | false => exact ih

/-! ## Product lookup lemmas (base precedence) -/

theorem lookup_insertOne_preserve (p : Product) (lut : List (String × Product))
    (v : Variation) (dk : String) (q : Product) (h : lut.lookup dk = some q) :
    (insertOne p lut v).lookup dk = some q := by
  cases hv : v.digiKeyProductNumber with
  | none => simp only [insertOne, hv]; exact h
  | some dk' =>
    simp only [insertOne, hv]
    by_cases he : dk' = ""
    · simp only [if_pos he]; exact h
    · simp only [if_neg he]
      cases hl : lut.lookup dk' with
      | some _ => simp only []; exact h
      | none =>
        simp only []
        rw [lookup_append, h]

theorem insertVariationsAux_preserve (p : Product) :
    ∀ (vs : List Variation) (lut : List (String × Product)) (dk : String) (q : Product),
      lut.lookup dk = some q → (insertVariationsAux p vs lut).lookup dk = some q := by
  intro vs
  induction vs with
  | nil => intro lut dk q h; exact h
  | cons v t ih =>
    intro lut dk q h
    simp only [insertVariationsAux]
    exact ih _ dk q (lookup_insertOne_preserve p lut v dk q h)

theorem insertVariations_preserve (p : Product) (lut : List (String × Product))
    (dk : String) (q : Product) (h : lut.lookup dk = some q) :
    (insertVariations p lut).lookup dk = some q :=
  insertVariationsAux_preserve p p.productVariations lut dk q h

theorem buildLutAux_preserve :
    ∀ (ps : List Product) (lut : List (String × Product)) (dk : String) (q : Product),
      lut.lookup dk = some q → (buildLutAux ps lut).lookup dk = some q := by
  intro ps
  induction ps with
  | nil => intro lut dk q h; exact h
  | cons p t ih =>
    intro lut dk q h
    exact ih _ dk q (insertVariations_preserve p lut dk q h)

theorem lookup_isSome_preserve (p : Product) (lut : List (String × Product))
    (v : Variation) (dk : String) (h : (lut.lookup dk).isSome) :
    ((insertOne p lut v).lookup dk).isSome := by
  cases hl : lut.lookup dk with
  | none => rw [hl] at h; exact absurd h (by simp)
  | some q => rw [lookup_insertOne_preserve p lut v dk q hl]; rfl

theorem insertVariationsAux_establish (p : Product) :
    ∀ (vs : List Variation) (lut : List (String × Product)) (dk : String),
      dk ∈ variationKeysAux vs →
      ((insertVariationsAux p vs lut).lookup dk).isSome := by
  intro vs
  induction vs with
  | nil => intro lut dk h; simp [variationKeysAux] at h
  | cons v t ih =>
    intro lut dk h
    simp only [insertVariationsAux]
    cases hv : v.digiKeyProductNumber with
    | none =>
      simp only [variationKeysAux, hv] at h
      exact ih _ dk h
    | some dk' =>
      simp only [variationKeysAux, hv] at h
      by_cases he : dk' = ""
      · rw [if_pos he] at h
        exact ih _ dk h
      · rw [if_neg he, List.mem_cons] at h
        rcases h with h | h
        · subst h
          have hsome : ((insertOne p lut v).lookup dk).isSome := by
            simp only [insertOne, hv, if_neg he]
            cases hl : lut.lookup dk with
            | some q => simp only []; rw [hl]; rfl
            | none =>
              simp only []
              rw [lookup_append, hl]
              simp [List.lookup]
          cases hfin : (insertOne p lut v).lookup dk with
          | none => rw [hfin] at hsome; exact absurd hsome (by simp)
          | some q =>
            rw [insertVariationsAux_preserve p t _ dk q hfin]
            rfl
        · exact ih _ dk h

theorem insertVariationsAux_provenance (p : Product) :
    ∀ (vs : List Variation) (lut : List (String × Product)) (dk : String) (q : Product),
      (insertVariationsAux p vs lut).lookup dk = some q →
      lut.lookup dk = some q ∨ q = p := by
  intro vs
  induction vs with
  | nil => intro lut dk q h; exact Or.inl h
  | cons v t ih =>
    intro lut dk q h
    simp only [insertVariationsAux] at h
    rcases ih _ dk q h with h2 | h2
    · cases hv : v.digiKeyProductNumber with
      | none => simp only [insertOne, hv] at h2; exact Or.inl h2
      | some dk' =>
        simp only [insertOne, hv] at h2
        by_cases he : dk' = ""
        · rw [if_pos he] at h2; exact Or.inl h2
        · rw [if_neg he] at h2
          cases hl : lut.lookup dk' with
          | some _ => rw [hl] at h2; exact Or.inl h2
          | none =>
            rw [hl] at h2
            simp only [] at h2
            rw [lookup_append] at h2
            cases hld : lut.lookup dk with
            | some _ => rw [hld] at h2; exact Or.inl h2
            | none =>
              rw [hld] at h2
              simp only [List.lookup] at h2
              cases hbe : (dk == dk') with
              | true => rw [hbe] at h2; cases h2; exact Or.inr rfl
              | false => rw [hbe] at h2; exact absurd h2 (by simp)
    · exact Or.inr h2

theorem buildLutAux_establish :
    ∀ (ps : List Product) (lut : List (String × Product)) (dk : String),
      dk ∈ iter_prod_dk_keys ps ∨ (lut.lookup dk).isSome →
      ((buildLutAux ps lut).lookup dk).isSome := by
  intro ps
  induction ps with
  | nil =>
    intro lut dk h
    rcases h with h | h
    · simp [iter_prod_dk_keys] at h
    · exact h
  | cons p t ih =>
    intro lut dk h
    simp only [buildLutAux]
    rcases h with h | h
    · rw [iter_prod_dk_keys, List.mem_append] at h
      rcases h with h | h
      · exact ih _ dk (Or.inr (insertVariationsAux_establish p _ lut dk h))
      · exact ih _ dk (Or.inl h)
    · apply ih
      right
      cases hl : lut.lookup dk with
      | none => rw [hl] at h; exact absurd h (by simp)
      | some q =>
        rw [insertVariations_preserve p lut dk q hl]
        rfl

theorem buildLutAux_provenance :
    ∀ (ps : List Product) (lut : List (String × Product)) (dk : String) (q : Product),
      (buildLutAux ps lut).lookup dk = some q →
      lut.lookup dk = some q ∨ q ∈ ps := by
  intro ps
  induction ps with
  | nil => intro lut dk q h; exact Or.inl h
  | cons p t ih =>
    intro lut dk q h
    simp only [buildLutAux] at h
    rcases ih _ dk q h with h2 | h2
    · rcases insertVariationsAux_provenance p _ lut dk q h2 with h3 | h3
      · exact Or.inl h3
      · exact Or.inr (by simp [h3])
    · exact Or.inr (List.mem_cons_of_mem _ h2)

/-- C4: every vendor part number that occurs (non-empty) in some base
product's variation list is mapped by the merged lookup to a record from the
base set — delta never overrides it. -/
theorem C4_base_precedence (base delta : List Product) (dk : String)
    (h : dk ∈ iter_prod_dk_keys base) :
    ∃ p, p ∈ base ∧ (build_prod_by_dk base delta).lookup dk = some p := by
  have hbase : ((buildLutAux base []).lookup dk).isSome :=
    buildLutAux_establish base [] dk (Or.inl h)
  cases hq : (buildLutAux base []).lookup dk with
  | none => rw [hq] at hbase; exact absurd hbase (by simp)
  | some q =>
    have hmem : q ∈ base := by
      rcases buildLutAux_provenance base [] dk q hq with h2 | h2
      · simp [List.lookup] at h2
      · exact h2
    refine ⟨q, hmem, ?_⟩
    exact buildLutAux_preserve delta _ dk q hq

theorem C4_witness :
    ∃ p, p ∈ [exBaseProdC4] ∧
      (build_prod_by_dk [exBaseProdC4] [exDeltaProdC4]).lookup "PN1" = some p :=
  C4_base_precedence [exBaseProdC4] [exDeltaProdC4] "PN1" (by decide)

/-! ## Other-parameters dict lemmas -/

theorem otherParamsAux_lookup :
    ∀ (ps : List Parameter) (acc : List (String × String)) (k : String),
      (otherParamsAux ps acc).lookup k =
        if k ∈ MCU_PROMOTED_PARAM_TEXTS then acc.lookup k
        else
          match ps.reverse.find? (fun prm => prm.parameterText.getD "" == k) with
          | some prm => some (prm.valueText.getD "")
          | none => acc.lookup k := by
  intro ps
  induction ps with
  | nil =>
    intro acc k
    simp only [otherParamsAux, List.reverse_nil, List.find?_nil]
    by_cases hk : k ∈ MCU_PROMOTED_PARAM_TEXTS
    · rw [if_pos hk]
    · rw [if_neg hk]
  | cons prm rest ih =>
    intro acc k
    simp only [otherParamsAux, List.reverse_cons]
    rw [ih]
    by_cases hk : k ∈ MCU_PROMOTED_PARAM_TEXTS
    · rw [if_pos hk, if_pos hk]
      simp only [otherParamsStep]
      by_cases hkk : prm.parameterText.getD "" ∈ MCU_PROMOTED_PARAM_TEXTS
      · rw [if_pos hkk]
      · rw [if_neg hkk]
        exact lookup_upsert_other acc _ _ k (fun he => hkk (he ▸ hk))
    · rw [if_neg hk, if_neg hk]
      cases hfind : rest.reverse.find? (fun q => q.parameterText.getD "" == k) with
      | some q =>
        rw [find?_append_some _ _ _ q hfind]
      | none =>
        rw [find?_append_none _ _ _ hfind]
        by_cases hpk : prm.parameterText.getD "" = k
        · have hfp : List.find? (fun q => q.parameterText.getD "" == k) [prm] = some prm := by
            simp [List.find?, hpk]
          rw [hfp]
          simp only [otherParamsStep, hpk, if_neg hk]
          exact lookup_upsert_self acc k _
        · have hfp : List.find? (fun q => q.parameterText.getD "" == k) [prm] = none := by
            simp [List.find?, show (prm.parameterText.getD "" == k) = false from
              beq_eq_false_iff_ne.mpr hpk]
          rw [hfp]
          simp only [otherParamsStep]
          by_cases hkk : prm.parameterText.getD "" ∈ MCU_PROMOTED_PARAM_TEXTS
          · rw [if_pos hkk]
          · rw [if_neg hkk]
            exact lookup_upsert_other acc _ _ k (fun he => hpk he.symm)

theorem build_other_lookup (prod : Option Product) (k : String) :
    (build_other_params_dict prod).lookup k =
      if k ∈ MCU_PROMOTED_PARAM_TEXTS then none else lastParamValue prod k := by
  cases prod with
  | none =>
    simp only [build_other_params_dict, lastParamValue, List.lookup]
    by_cases hk : k ∈ MCU_PROMOTED_PARAM_TEXTS
    · rw [if_pos hk]
    · rw [if_neg hk]
  | some p =>
    simp only [build_other_params_dict, lastParamValue]
    rw [otherParamsAux_lookup]
    by_cases hk : k ∈ MCU_PROMOTED_PARAM_TEXTS
    · rw [if_pos hk, if_pos hk]
      rfl
    · rw [if_neg hk, if_neg hk]
      cases hfind : p.parameters.reverse.find? (fun prm => prm.parameterText.getD "" == k) with
      | some q => simp
      | none => simp [List.lookup]

/-! ## Row projection lemmas -/

theorem mkRow_detail_key (lut : List (String × Product)) (invs : List Invoice)
    (b : Bool) (d : Detail) : (mkRow lut invs b d).detail_key = detailKey d := rfl

theorem mkRow_is_new (lut : List (String × Product)) (invs : List Invoice)
    (b : Bool) (d : Detail) : (mkRow lut invs b d).is_new = b := rfl

theorem mkRow_dk_pn (lut : List (String × Product)) (invs : List Invoice)
    (b : Bool) (d : Detail) :
    (mkRow lut invs b d).dk_pn = d.digiKeyProductNumber.getD "" := rfl

theorem mkRow_other_dict (lut : List (String × Product)) (invs : List Invoice)
    (b : Bool) (d : Detail) :
    (mkRow lut invs b d).other_dict =
      build_other_params_dict (lut.lookup (d.digiKeyProductNumber.getD "")) := rfl

theorem mem_iter_detail_keys :
    ∀ (doc : List Order) (k : DetailKey),
      k ∈ iter_detail_keys doc ↔
        ∃ o, o ∈ doc ∧ ∃ d, d ∈ o.invoiceDetails ∧ detailKey d = k := by
  intro doc
  induction doc with
  | nil => intro k; simp [iter_detail_keys]
  | cons o rest ih =>
    intro k
    simp only [iter_detail_keys, List.mem_append, List.mem_map, ih, List.mem_cons]
    constructor
    · rintro (⟨d, hd, rfl⟩ | ⟨o', ho', d, hd, rfl⟩)
      · exact ⟨o, Or.inl rfl, d, hd, rfl⟩
      · exact ⟨o', Or.inr ho', d, hd, rfl⟩
    · rintro ⟨o', ho' | ho', d, hd, rfl⟩
      · subst ho'; exact Or.inl ⟨d, hd, rfl⟩
      · exact Or.inr ⟨o', ho', d, hd, rfl⟩

theorem iter_detail_keys_append (l₁ l₂ : List Order) :
    iter_detail_keys (l₁ ++ l₂) = iter_detail_keys l₁ ++ iter_detail_keys l₂ := by
  induction l₁ with
  | nil => simp [iter_detail_keys]
  | cons o rest ih => simp [iter_detail_keys, ih]

theorem mem_delta_only_keys (base delta : List Order) (k : DetailKey) :
    k ∈ delta_only_keys base delta ↔
      k ∈ iter_detail_keys delta ∧ k ∉ iter_detail_keys base := by
  simp [delta_only_keys, List.mem_filter]

theorem processDetails_seen_mem (lut : List (String × Product)) (invs : List Invoice)
    (nk : List DetailKey) :
    ∀ (ds : List Detail) (st : BRState) (k : DetailKey),
      k ∈ (processDetails lut invs nk st ds).seen ↔
        k ∈ st.seen ∨ k ∈ ds.map detailKey := by
  intro ds
  induction ds with
  | nil => intro st k; simp [processDetails]
  | cons d t ih =>
    intro st k
    simp only [processDetails, List.map_cons, List.mem_cons]
    rw [ih]
    simp only [processDetail]
    by_cases h : detailKey d ∈ st.seen
    · rw [if_pos h]
      constructor
      · rintro (hs | ht)
        · exact Or.inl hs
        · exact Or.inr (Or.inr ht)
      · rintro (hs | hk | ht)
        · exact Or.inl hs
        · subst hk; exact Or.inl h
        · exact Or.inr ht
    · rw [if_neg h]
      simp only [List.mem_append, List.mem_singleton]
      constructor
      · rintro ((hs | hk) | ht)
        · exact Or.inl hs
        · exact Or.inr (Or.inl hk)
        · exact Or.inr (Or.inr ht)
      · rintro (hs | hk | ht)
        · exact Or.inl (Or.inl hs)
        · exact Or.inl (Or.inr hk)
        · exact Or.inr ht

theorem buildRowsAux_seen_mem (lut : List (String × Product)) (nk : List DetailKey) :
    ∀ (doc : List Order) (st : BRState) (k : DetailKey),
      k ∈ (buildRowsAux lut nk st doc).seen ↔
        k ∈ st.seen ∨ k ∈ iter_detail_keys doc := by
  intro doc
  induction doc with
  | nil => intro st k; simp [buildRowsAux, iter_detail_keys]
  | cons o rest ih =>
    intro st k
    simp only [buildRowsAux, iter_detail_keys, List.mem_append]
    rw [ih, processOrder, processDetails_seen_mem]
    tauto

theorem processDetails_rows_shape (lut : List (String × Product)) (invs : List Invoice)
    (nk : List DetailKey) :
    ∀ (ds : List Detail) (st : BRState),
      ∃ extra, (processDetails lut invs nk st ds).rows = st.rows ++ extra ∧
        ∀ r ∈ extra, ∃ d, d ∈ ds ∧ r = mkRow lut invs (decide (detailKey d ∈ nk)) d ∧
          detailKey d ∉ st.seen := by
  intro ds
  induction ds with
  | nil =>
    intro st
    exact ⟨[], by simp [processDetails], by simp⟩
  | cons d t ih =>
    intro st
    simp only [processDetails, processDetail]
    by_cases h : detailKey d ∈ st.seen
    · rw [if_pos h]
      obtain ⟨extra, he, hp⟩ := ih st
      refine ⟨extra, he, ?_⟩
      intro r hr
      obtain ⟨d', hd', heq, hseen⟩ := hp r hr
      exact ⟨d', List.mem_cons_of_mem _ hd', heq, hseen⟩
    · rw [if_neg h]
      obtain ⟨extra, he, hp⟩ := ih ⟨st.seen ++ [detailKey d], st.rows ++ [mkRow lut invs (decide (detailKey d ∈ nk)) d]⟩
      refine ⟨mkRow lut invs (decide (detailKey d ∈ nk)) d :: extra, ?_, ?_⟩
      · rw [he]
        simp
      · intro r hr
        rcases List.mem_cons.mp hr with hr | hr
        · exact ⟨d, List.mem_cons_self _ _, hr, h⟩
        · obtain ⟨d', hd', heq, hseen⟩ := hp r hr
          refine ⟨d', List.mem_cons_of_mem _ hd', heq, ?_⟩
          intro hmem
          exact hseen (by simp [hmem])

theorem buildRowsAux_rows_shape (lut : List (String × Product)) (nk : List DetailKey) :
    ∀ (doc : List Order) (st : BRState),
      ∃ extra, (buildRowsAux lut nk st doc).rows = st.rows ++ extra ∧
        ∀ r ∈ extra, ∃ o d, o ∈ doc ∧ d ∈ o.invoiceDetails ∧
          r = mkRow lut o.invoices (decide (detailKey d ∈ nk)) d ∧
          detailKey d ∉ st.seen := by
  intro doc
  induction doc with
  | nil =>
    intro st
    exact ⟨[], by simp [buildRowsAux], by simp⟩
  | cons o rest ih =>
    intro st
    simp only [buildRowsAux]
    obtain ⟨e1, he1, hp1⟩ := processDetails_rows_shape lut o.invoices nk o.invoiceDetails st
    obtain ⟨e2, he2, hp2⟩ := ih (processOrder lut nk st o)
    refine ⟨e1 ++ e2, ?_, ?_⟩
    · rw [he2]
      show (processDetails lut o.invoices nk st o.invoiceDetails).rows ++ e2 = _
      rw [he1, List.append_assoc]
    · intro r hr
      rcases List.mem_append.mp hr with hr | hr
      · obtain ⟨d, hd, heq, hseen⟩ := hp1 r hr
        exact ⟨o, d, List.mem_cons_self _ _, hd, heq, hseen⟩
      · obtain ⟨o', d, ho', hd, heq, hseen⟩ := hp2 r hr
        refine ⟨o', d, List.mem_cons_of_mem _ ho', hd, heq, ?_⟩
        intro hmem
        apply hseen
        show detailKey d ∈ (processDetails lut o.invoices nk st o.invoiceDetails).seen
        rw [processDetails_seen_mem]
        exact Or.inl hmem

theorem processDetails_nk_congr (lut : List (String × Product)) (invs : List Invoice) :
    ∀ (nk₁ nk₂ : List DetailKey) (ds : List Detail) (st : BRState),
      (∀ k ∈ ds.map detailKey, (k ∈ nk₁ ↔ k ∈ nk₂)) →
      processDetails lut invs nk₁ st ds = processDetails lut invs nk₂ st ds := by
  intro nk₁ nk₂ ds
  induction ds with
  | nil => intro st _; rfl
  | cons d t ih =>
    intro st hcong
    simp only [processDetails]
    have hd : processDetail lut invs nk₁ st d = processDetail lut invs nk₂ st d := by
      simp only [processDetail]
      have : decide (detailKey d ∈ nk₁) = decide (detailKey d ∈ nk₂) :=
        decide_eq_decide.mpr (hcong (detailKey d) (by simp))
      rw [this]
    rw [hd]
    exact ih _ (fun k hk => hcong k (by simp at hk ⊢; exact Or.inr hk))

theorem buildRowsAux_nk_congr (lut : List (String × Product)) :
    ∀ (nk₁ nk₂ : List DetailKey) (doc : List Order) (st : BRState),
      (∀ k ∈ iter_detail_keys doc, (k ∈ nk₁ ↔ k ∈ nk₂)) →
      buildRowsAux lut nk₁ st doc = buildRowsAux lut nk₂ st doc := by
  intro nk₁ nk₂ doc
  induction doc with
  | nil => intro st _; rfl
  | cons o rest ih =>
    intro st hcong
    simp only [buildRowsAux, processOrder]
    have ho : processDetails lut o.invoices nk₁ st o.invoiceDetails =
        processDetails lut o.invoices nk₂ st o.invoiceDetails :=
      processDetails_nk_congr lut o.invoices nk₁ nk₂ o.invoiceDetails st
        (fun k hk => hcong k (by simp [iter_detail_keys, List.mem_append]; exact Or.inl (by simpa using hk)))
    rw [ho]
    exact ih _ (fun k hk => hcong k (by simp [iter_detail_keys, List.mem_append]; exact Or.inr hk))

theorem buildRowsAux_append (lut : List (String × Product)) (nk : List DetailKey) :
    ∀ (l₁ l₂ : List Order) (st : BRState),
      buildRowsAux lut nk st (l₁ ++ l₂) = buildRowsAux lut nk (buildRowsAux lut nk st l₁) l₂ := by
  intro l₁
  induction l₁ with
  | nil => intro l₂ st; rfl
  | cons o rest ih => intro l₂ st; simp only [List.cons_append, buildRowsAux]; exact ih l₂ _

theorem processDetails_inv (lut : List (String × Product)) (invs : List Invoice)
    (nk : List DetailKey) :
    ∀ (ds : List Detail) (st : BRState), InvBR st →
      InvBR (processDetails lut invs nk st ds) := by
  intro ds
  induction ds with
  | nil => intro st h; exact h
  | cons d t ih =>
    intro st h
    simp only [processDetails]
    apply ih
    simp only [processDetail]
    by_cases hd : detailKey d ∈ st.seen
    · rw [if_pos hd]; exact h
    · rw [if_neg hd]
      obtain ⟨hiff, hnodup⟩ := h
      constructor
      · intro k
        simp only [List.mem_append, List.mem_singleton]
        rw [hiff k]
        constructor
        · rintro (⟨r, hr, hk⟩ | hk)
          · exact ⟨r, Or.inl hr, hk⟩
          · exact ⟨mkRow lut invs (decide (detailKey d ∈ nk)) d, Or.inr rfl,
              (mkRow_detail_key lut invs _ d).trans hk.symm⟩
        · rintro ⟨r, hr | hr, hk⟩
          · exact Or.inl ⟨r, hr, hk⟩
          · subst hr
            rw [mkRow_detail_key] at hk
            exact Or.inr hk.symm
      · rw [List.map_append, List.nodup_append]
        refine ⟨hnodup, by simp, ?_⟩
        intro k hk1 hk2
        simp only [List.map_cons, List.map_nil, List.mem_singleton] at hk2
        rw [mkRow_detail_key] at hk2
        subst hk2
        obtain ⟨r, hr, hk⟩ := List.mem_map.mp hk1
        exact hd ((hiff (detailKey d)).mpr ⟨r, hr, hk⟩)

theorem buildRowsAux_inv (lut : List (String × Product)) (nk : List DetailKey) :
    ∀ (doc : List Order) (st : BRState), InvBR st →
      InvBR (buildRowsAux lut nk st doc) := by
  intro doc
  induction doc with
  | nil => intro st h; exact h
  | cons o rest ih =>
    intro st h
    exact ih _ (processDetails_inv lut o.invoices nk o.invoiceDetails st h)

/-! ## Verifier lemmas and main merge theorems -/

theorem checkB_self (l : List Row) (h : (l.map (fun r => r.detail_key)).Nodup) :
    checkB l l = true := by
  simp only [checkB, Bool.and_eq_true, List.all_eq_true]
  refine ⟨⟨?_, ?_⟩, ?_⟩
  · intro r hr
    simp only [List.any_eq_true]
    exact ⟨r, hr, by simp⟩
  · intro r hr
    simp only [List.any_eq_true]
    exact ⟨r, hr, by simp⟩
  · intro r hr
    cases hf : l.find? (fun r2 => r2.detail_key == r.detail_key) with
    | none =>
      rw [List.find?_eq_none] at hf
      exact absurd (by simp : (r.detail_key == r.detail_key) = true) (by simpa using hf r hr)
    | some r2 =>
      have hp := List.find?_some hf
      have hmem := List.mem_of_find?_eq_some hf
      have heq : r2 = r := List.inj_on_of_nodup_map h hmem hr (beq_iff_eq.mp hp)
      subst heq
      simp

/-- C2: projecting from base alone and projecting from base+delta then
discarding the rows flagged new yield the same row list (hence identical
identity-key sets and equal values in every stable column), and check B of
the verifier accepts the pair. -/
theorem C2_old_rows_unchanged (base delta : List Order) (lut : List (String × Product)) :
    (build_rows (base ++ delta) lut (delta_only_keys base delta)).filter
        (fun r => !r.is_new) = build_rows base lut [] ∧
    checkB (build_rows base lut [])
      ((build_rows (base ++ delta) lut (delta_only_keys base delta)).filter
        (fun r => !r.is_new)) = true := by
  have hmain : (build_rows (base ++ delta) lut (delta_only_keys base delta)).filter
      (fun r => !r.is_new) = build_rows base lut [] := by
    show ((buildRowsAux lut (delta_only_keys base delta) ⟨[], []⟩ (base ++ delta)).rows.filter
      (fun r => !r.is_new)) = (buildRowsAux lut [] ⟨[], []⟩ base).rows
    rw [buildRowsAux_append]
    have hcongr : buildRowsAux lut (delta_only_keys base delta) ⟨[], []⟩ base =
        buildRowsAux lut [] ⟨[], []⟩ base := by
      apply buildRowsAux_nk_congr
      intro k hk
      simp only [List.not_mem_nil, iff_false]
      intro hkd
      exact ((mem_delta_only_keys base delta k).mp hkd).2 hk
    rw [hcongr]
    obtain ⟨extra, hrows, hprops⟩ := buildRowsAux_rows_shape lut (delta_only_keys base delta)
      delta (buildRowsAux lut [] ⟨[], []⟩ base)
    rw [hrows, List.filter_append]
    have h1 : (buildRowsAux lut [] ⟨[], []⟩ base).rows.filter (fun r => !r.is_new) =
        (buildRowsAux lut [] ⟨[], []⟩ base).rows := by
      rw [List.filter_eq_self]
      intro r hr
      obtain ⟨extra0, hrows0, hprops0⟩ := buildRowsAux_rows_shape lut [] base ⟨[], []⟩
      rw [hrows0] at hr
      simp only [List.nil_append] at hr
      obtain ⟨o, d, _, _, heq, _⟩ := hprops0 r hr
      subst heq
      simp [mkRow_is_new]
    have h2 : extra.filter (fun r => !r.is_new) = [] := by
      rw [List.filter_eq_nil]
      intro r hrx
      obtain ⟨o, d, ho, hd, heq, hseen⟩ := hprops r hrx
      have hkdelta : detailKey d ∈ iter_detail_keys delta :=
        (mem_iter_detail_keys delta _).mpr ⟨o, ho, d, hd, rfl⟩
      have hnotbase : detailKey d ∉ iter_detail_keys base := by
        intro hb
        apply hseen
        rw [buildRowsAux_seen_mem]
        exact Or.inr hb
      have hin : detailKey d ∈ delta_only_keys base delta :=
        (mem_delta_only_keys base delta _).mpr ⟨hkdelta, hnotbase⟩
      subst heq
      simp [mkRow_is_new, hin]
    rw [h1, h2, List.append_nil]
  refine ⟨hmain, ?_⟩
  rw [hmain]
  apply checkB_self
  exact (buildRowsAux_inv lut [] base ⟨[], []⟩ ⟨by simp, by simp⟩).2

/-- C3: the number of rows flagged new in the merged projection equals the
cardinality of the set difference of delta identity keys minus base identity
keys — check A of the verifier always passes. -/
theorem C3_new_row_count (base delta : List Order) (lut : List (String × Product)) :
    ((build_rows (base ++ delta) lut (delta_only_keys base delta)).filter
        (fun r => r.is_new)).length =
      ((iter_detail_keys delta).toFinset \ (iter_detail_keys base).toFinset).card := by
  obtain ⟨extra, hsh, hprops⟩ := buildRowsAux_rows_shape lut (delta_only_keys base delta)
    (base ++ delta) ⟨[], []⟩
  have hinv := buildRowsAux_inv lut (delta_only_keys base delta) (base ++ delta) ⟨[], []⟩
    ⟨by simp, by simp⟩
  have hrows : build_rows (base ++ delta) lut (delta_only_keys base delta) =
      (buildRowsAux lut (delta_only_keys base delta) ⟨[], []⟩ (base ++ delta)).rows := rfl
  simp only [List.nil_append] at hsh
  rw [hrows, hsh]
  have hNodup : ((extra.filter (fun r => r.is_new)).map (fun r => r.detail_key)).Nodup := by
    have h1 := hinv.2
    rw [hsh] at h1
    exact List.Nodup.sublist (List.Sublist.map _ (List.filter_sublist extra)) h1
  have hKset : ∀ k, k ∈ (extra.filter (fun r => r.is_new)).map (fun r => r.detail_key) ↔
      k ∈ delta_only_keys base delta := by
    intro k
    simp only [List.mem_map, List.mem_filter]
    constructor
    · rintro ⟨r, ⟨hr, hn⟩, rfl⟩
      obtain ⟨o, d, ho, hd, heq, hseen⟩ := hprops r hr
      subst heq
      rw [mkRow_is_new] at hn
      rw [mkRow_detail_key]
      exact of_decide_eq_true hn
    · intro hk
      have hkin : k ∈ iter_detail_keys (base ++ delta) := by
        rw [iter_detail_keys_append, List.mem_append]
        exact Or.inr ((mem_delta_only_keys base delta k).mp hk).1
      have hseenk : k ∈ (buildRowsAux lut (delta_only_keys base delta) ⟨[], []⟩
          (base ++ delta)).seen := by
        rw [buildRowsAux_seen_mem]
        exact Or.inr hkin
      obtain ⟨r, hr, hkey⟩ := (hinv.1 k).mp hseenk
      rw [hsh] at hr
      refine ⟨r, ⟨hr, ?_⟩, hkey⟩
      obtain ⟨o, d, ho, hd, heq, hseen⟩ := hprops r hr
      subst heq
      rw [mkRow_detail_key] at hkey
      rw [mkRow_is_new]
      exact decide_eq_true (hkey ▸ hk)
  calc ((extra.filter (fun r => r.is_new)).length)
      = ((extra.filter (fun r => r.is_new)).map (fun r => r.detail_key)).length :=
        (List.length_map _ _).symm
    _ = ((extra.filter (fun r => r.is_new)).map (fun r => r.detail_key)).toFinset.card :=
        (List.toFinset_card_of_nodup hNodup).symm
    _ = (delta_only_keys base delta).toFinset.card := by
        congr 1
        ext k
        simp only [List.mem_toFinset]
        exact hKset k
    _ = ((iter_detail_keys delta).toFinset \ (iter_detail_keys base).toFinset).card := by
        congr 1
        ext k
        simp only [List.mem_toFinset, Finset.mem_sdiff, mem_delta_only_keys]

/-- C1 amended: for every projected row — whether or not its product is
MCU-classified — the other-parameters blob has no entry named by any of the
four MCU-promoted parameter names, and maps every other parameter name of
the row's product to its (last-occurring) value text. -/
theorem C1_other_params_amended (doc : List Order) (lut : List (String × Product))
    (nk : List DetailKey) (r : Row) (hr : r ∈ build_rows doc lut nk) (k : String) :
    r.other_dict.lookup k =
      if k ∈ MCU_PROMOTED_PARAM_TEXTS then none
      else lastParamValue (lut.lookup r.dk_pn) k := by
  obtain ⟨extra, hsh, hprops⟩ := buildRowsAux_rows_shape lut nk doc ⟨[], []⟩
  have hr' : r ∈ extra := by
    have hmem : r ∈ (buildRowsAux lut nk ⟨[], []⟩ doc).rows := hr
    rw [hsh] at hmem
    simpa using hmem
  obtain ⟨o, d, _, _, heq, _⟩ := hprops r hr'
  subst heq
  rw [mkRow_other_dict, mkRow_dk_pn]
  exact build_other_lookup _ k

/-- C1 counterexample: a projected row whose product is not MCU-classified
(no category) and carries a parameter named "Core Processor"; the claim says
the blob contains that parameter verbatim, but the blob omits it (while
keeping "Resistance"). -/
theorem C1_other_params_counterexample :
    is_mcu_product (exLutC1.lookup "P1") = false ∧
    exProdPlain.parameters.map (fun prm => prm.parameterText) =
      [some "Core Processor", some "Resistance"] ∧
    (build_rows [exOrderC1] exLutC1 []).map
      (fun r => (r.dk_pn, r.other_dict.lookup "Core Processor",
        r.other_dict.lookup "Resistance")) =
      [("P1", none, some "10k")] := by
  decide

theorem C1_other_params_amended_witness :
    (mkRow exLutC1 exOrderC1.invoices false exDetailC1 ∈ build_rows [exOrderC1] exLutC1 []) ∧
    (mkRow exLutC1 exOrderC1.invoices false exDetailC1).other_dict.lookup "Resistance" =
      (if "Resistance" ∈ MCU_PROMOTED_PARAM_TEXTS then none
       else lastParamValue
         (exLutC1.lookup (mkRow exLutC1 exOrderC1.invoices false exDetailC1).dk_pn)
         "Resistance") :=
  ⟨by decide,
    C1_other_params_amended [exOrderC1] exLutC1 [] _ (by decide) "Resistance"⟩

/-- C9: the five output files are written exactly when all three invariant
checks pass; when any check fails the run aborts with an error and writes
nothing. -/
theorem C9_checks_gate_outputs (inp : PipelineInputs) :
    ((run_pipeline inp).1 = OUTPUT_FILES ∨ (run_pipeline inp).1 = []) ∧
    ((run_pipeline inp).1 = OUTPUT_FILES ↔ (run_pipeline inp).2 = none) ∧
    ((run_pipeline inp).2 = none ↔
      (checkA inp = true ∧
       checkB (pipeline_base_rows inp)
         ((pipeline_merged_rows inp).filter (fun r => !r.is_new)) = true ∧
       checkC (pipeline_merged_rows inp) = true)) := by
  unfold run_pipeline
  by_cases hA : checkA inp
  · by_cases hB : checkB (pipeline_base_rows inp)
        ((pipeline_merged_rows inp).filter (fun r => !r.is_new))
    · by_cases hC : checkC (pipeline_merged_rows inp)
      · simp [hA, hB, hC]
      · simp [hA, hB, hC, OUTPUT_FILES]
    · simp [hA, hB, OUTPUT_FILES]
  · simp [hA, OUTPUT_FILES]

/-! ## Base/delta selector lemmas -/

theorem extractMinSize_size_le {κ : Type} :
    ∀ (l : List (Cand κ)) (c : Cand κ) (x : Cand κ), x ∈ c :: l →
      (extractMinSize c l).1.size ≤ x.size := by
  intro l
  induction l with
  | nil =>
    intro c x hx
    rw [List.mem_singleton] at hx
    subst hx
    exact Nat.le_refl _
  | cons y ys ih =>
    intro c x hx
    by_cases hlt : y.size < c.size
    · have hr : (extractMinSize c (y :: ys)).1 = (extractMinSize y ys).1 := by
        simp [extractMinSize, hlt]
      rw [hr]
      have hyy := ih y y (List.mem_cons_self _ _)
      rcases List.mem_cons.mp hx with heq | hx2
      · rw [heq]; omega
      · rcases List.mem_cons.mp hx2 with heq | hx3
        · rw [heq]; exact hyy
        · exact ih y x (List.mem_cons_of_mem _ hx3)
    · have hr : (extractMinSize c (y :: ys)).1 = (extractMinSize c ys).1 := by
        simp [extractMinSize, hlt]
      rw [hr]
      have hcc := ih c c (List.mem_cons_self _ _)
      rcases List.mem_cons.mp hx with heq | hx2
      · rw [heq]; exact hcc
      · rcases List.mem_cons.mp hx2 with heq | hx3
        · rw [heq]; omega
        · exact ih c x (List.mem_cons_of_mem _ hx3)

theorem extractMinSize_snd_length {κ : Type} :
    ∀ (l : List (Cand κ)) (c : Cand κ), (extractMinSize c l).2.length = l.length := by
  intro l
  induction l with
  | nil => intro c; rfl
  | cons y ys ih =>
    intro c
    by_cases hlt : y.size < c.size
    · simp [extractMinSize, hlt, ih]
    · simp [extractMinSize, hlt, ih]

theorem extractMinSize_snd_subset {κ : Type} :
    ∀ (l : List (Cand κ)) (c : Cand κ) (x : Cand κ),
      x ∈ (extractMinSize c l).2 → x ∈ c :: l := by
  intro l
  induction l with
  | nil => intro c x hx; simp [extractMinSize] at hx
  | cons y ys ih =>
    intro c x hx
    by_cases hlt : y.size < c.size
    · have hr : extractMinSize c (y :: ys) =
          ((extractMinSize y ys).1, c :: (extractMinSize y ys).2) := by
        simp [extractMinSize, hlt]
      rw [hr] at hx
      rcases List.mem_cons.mp hx with rfl | hx2
      · exact List.mem_cons_self _ _
      · rcases List.mem_cons.mp (ih y x hx2) with rfl | hx3
        · exact List.mem_cons_of_mem _ (List.mem_cons_self _ _)
        · exact List.mem_cons_of_mem _ (List.mem_cons_of_mem _ hx3)
    · have hr : extractMinSize c (y :: ys) =
          ((extractMinSize c ys).1, y :: (extractMinSize c ys).2) := by
        simp [extractMinSize, hlt]
      rw [hr] at hx
      rcases List.mem_cons.mp hx with rfl | hx2
      · exact List.mem_cons_of_mem _ (List.mem_cons_self _ _)
      · rcases List.mem_cons.mp (ih c x hx2) with rfl | hx3
        · exact List.mem_cons_self _ _
        · exact List.mem_cons_of_mem _ (List.mem_cons_of_mem _ hx3)

theorem pickBase_spec {κ : Type} [DecidableEq κ] (dkeys : Finset κ) :
    ∀ (cs : List (Cand κ)) (c : Cand κ),
      pickBase dkeys c cs ∈ c :: cs ∧
      ∀ x ∈ c :: cs,
        overlapCard dkeys (pickBase dkeys c cs) ≤ overlapCard dkeys x ∧
        (overlapCard dkeys x = overlapCard dkeys (pickBase dkeys c cs) →
          x.size ≤ (pickBase dkeys c cs).size) := by
  intro cs
  induction cs with
  | nil =>
    intro c
    refine ⟨List.mem_singleton.mpr rfl, ?_⟩
    intro x hx
    rw [List.mem_singleton] at hx
    subst hx
    exact ⟨Nat.le_refl _, fun _ => Nat.le_refl _⟩
  | cons y cs ih =>
    intro c
    have hstep : pickBase dkeys c (y :: cs) =
        pickBase dkeys (if baseLt dkeys y c then y else c) cs := rfl
    by_cases hlt : baseLt dkeys y c = true
    · rw [hstep, if_pos hlt]
      rw [baseLt, decide_eq_true_eq] at hlt
      obtain ⟨hmem, hmin⟩ := ih y
      refine ⟨?_, ?_⟩
      · rcases List.mem_cons.mp hmem with h | h
        · rw [h]; exact List.mem_cons_of_mem _ (List.mem_cons_self _ _)
        · exact List.mem_cons_of_mem _ (List.mem_cons_of_mem _ h)
      · intro x hx
        rcases List.mem_cons.mp hx with rfl | hx2
        · have hy := hmin y (List.mem_cons_self _ _)
          constructor
          · rcases hlt with h | ⟨h, _⟩
            · omega
            · omega
          · intro heq
            rcases hlt with h | ⟨h, hsz⟩
            · omega
            · have hys := hy.2 (by omega)
              rcases hsz with h2 | ⟨h2, _⟩ <;> omega
        · exact hmin x hx2
    · rw [hstep, if_neg hlt]
      rw [baseLt, decide_eq_true_eq] at hlt
      push_neg at hlt
      obtain ⟨h1, h2⟩ := hlt
      obtain ⟨hmem, hmin⟩ := ih c
      refine ⟨?_, ?_⟩
      · rcases List.mem_cons.mp hmem with h | h
        · rw [h]; exact List.mem_cons_self _ _
        · exact List.mem_cons_of_mem _ (List.mem_cons_of_mem _ h)
      · intro x hx
        rcases List.mem_cons.mp hx with rfl | hx2
        · exact hmin x (List.mem_cons_self _ _)
        · rcases List.mem_cons.mp hx2 with rfl | hx3
          · have hc := hmin c (List.mem_cons_self _ _)
            constructor
            · omega
            · intro heq
              have hoc : overlapCard dkeys c = overlapCard dkeys (pickBase dkeys c cs) := by
                omega
              have hcsz := hc.2 hoc
              have hyx := h2 (by omega)
              obtain ⟨hnc, hrest⟩ := hyx
              omega
          · exact hmin x (List.mem_cons_of_mem _ hx3)

/-- C5: the selector picks as delta a size-minimal file, and as base — among
the remaining candidates — one of minimal key overlap with the delta,
preferring the larger file when overlaps tie. -/
theorem C5_discover_base_delta {κ : Type} [DecidableEq κ] (c1 c2 : Cand κ)
    (rest : List (Cand κ)) :
    ∀ base delta : Cand κ, discover_json_base_delta c1 c2 rest = (base, delta) →
      (∀ c ∈ c1 :: c2 :: rest, delta.size ≤ c.size) ∧
      base ∈ (extractMinSize c1 (c2 :: rest)).2 ∧
      ∀ c ∈ (extractMinSize c1 (c2 :: rest)).2,
        overlapCard delta.keys base ≤ overlapCard delta.keys c ∧
        (overlapCard delta.keys c = overlapCard delta.keys base →
          c.size ≤ base.size) := by
  intro base delta hdisc
  simp only [discover_json_base_delta] at hdisc
  cases hsnd : (extractMinSize c1 (c2 :: rest)).2 with
  | nil =>
    exfalso
    have hlen := extractMinSize_snd_length (c2 :: rest) c1
    rw [hsnd] at hlen
    simp at hlen
  | cons b bs =>
    rw [hsnd] at hdisc
    simp only [] at hdisc
    rw [Prod.mk.injEq] at hdisc
    obtain ⟨hbase, hdelta⟩ := hdisc
    subst hbase
    subst hdelta
    refine ⟨?_, ?_, ?_⟩
    · intro c hc
      exact extractMinSize_size_le (c2 :: rest) c1 c hc
    · exact (pickBase_spec _ bs b).1
    · intro c hc
      exact (pickBase_spec _ bs b).2 c hc

theorem C5_witness :
    (∀ c ∈ exCandA :: exCandB :: [exCandC], exCandB.size ≤ c.size) ∧
    exCandC ∈ (extractMinSize exCandA (exCandB :: [exCandC])).2 ∧
    ∀ c ∈ (extractMinSize exCandA (exCandB :: [exCandC])).2,
      overlapCard exCandB.keys exCandC ≤ overlapCard exCandB.keys c ∧
      (overlapCard exCandB.keys c = overlapCard exCandB.keys exCandC →
        c.size ≤ exCandC.size) :=
  C5_discover_base_delta exCandA exCandB [exCandC] exCandC exCandB (by decide)

/-! ## CSV pair selector lemmas -/

theorem pickCsvMini_spec :
    ∀ (cs : List CsvInfo) (c : CsvInfo),
      pickCsvMini c cs ∈ c :: cs ∧
      ∀ x ∈ c :: cs,
        (pickCsvMini c cs).ncols ≤ x.ncols ∧
        (x.ncols = (pickCsvMini c cs).ncols → (pickCsvMini c cs).size ≤ x.size) := by
  intro cs
  induction cs with
  | nil =>
    intro c
    refine ⟨List.mem_singleton.mpr rfl, ?_⟩
    intro x hx
    rw [List.mem_singleton] at hx
    subst hx
    exact ⟨Nat.le_refl _, fun _ => Nat.le_refl _⟩
  | cons y cs ih =>
    intro c
    have hstep : pickCsvMini c (y :: cs) =
        pickCsvMini (if csvMiniLt y c then y else c) cs := rfl
    by_cases hlt : csvMiniLt y c = true
    · rw [hstep, if_pos hlt]
      rw [csvMiniLt, decide_eq_true_eq] at hlt
      obtain ⟨hmem, hmin⟩ := ih y
      refine ⟨?_, ?_⟩
      · rcases List.mem_cons.mp hmem with h | h
        · rw [h]; exact List.mem_cons_of_mem _ (List.mem_cons_self _ _)
        · exact List.mem_cons_of_mem _ (List.mem_cons_of_mem _ h)
      · intro x hx
        rcases List.mem_cons.mp hx with heq | hx2
        · rw [heq]
          have hy := hmin y (List.mem_cons_self _ _)
          constructor
          · rcases hlt with h | ⟨h, _⟩ <;> omega
          · intro hceq
            rcases hlt with h | ⟨h, hsz⟩
            · omega
            · have hys := hy.2 (by omega)
              omega
        · exact hmin x hx2
    · rw [hstep, if_neg hlt]
      rw [csvMiniLt, decide_eq_true_eq] at hlt
      push_neg at hlt
      obtain ⟨h1, h2⟩ := hlt
      obtain ⟨hmem, hmin⟩ := ih c
      refine ⟨?_, ?_⟩
      · rcases List.mem_cons.mp hmem with h | h
        · rw [h]; exact List.mem_cons_self _ _
        · exact List.mem_cons_of_mem _ (List.mem_cons_of_mem _ h)
      · intro x hx
        rcases List.mem_cons.mp hx with heq | hx2
        · rw [heq]; exact hmin c (List.mem_cons_self _ _)
        · rcases List.mem_cons.mp hx2 with heq | hx3
          · rw [heq]
            have hc := hmin c (List.mem_cons_self _ _)
            constructor
            · omega
            · intro hyeq
              have hycols : y.ncols = c.ncols := by omega
              have hsz := h2 hycols
              have hcsz := hc.2 (by omega)
              omega
          · exact hmin x (List.mem_cons_of_mem _ hx3)

theorem pickCsvFull_spec :
    ∀ (cs : List CsvInfo) (c : CsvInfo),
      pickCsvFull c cs ∈ c :: cs ∧
      ∀ x ∈ c :: cs,
        x.size ≤ (pickCsvFull c cs).size ∧
        (x.size = (pickCsvFull c cs).size → x.ncols ≤ (pickCsvFull c cs).ncols) := by
  intro cs
  induction cs with
  | nil =>
    intro c
    refine ⟨List.mem_singleton.mpr rfl, ?_⟩
    intro x hx
    rw [List.mem_singleton] at hx
    subst hx
    exact ⟨Nat.le_refl _, fun _ => Nat.le_refl _⟩
  | cons y cs ih =>
    intro c
    have hstep : pickCsvFull c (y :: cs) =
        pickCsvFull (if csvFullGt y c then y else c) cs := rfl
    by_cases hlt : csvFullGt y c = true
    · rw [hstep, if_pos hlt]
      rw [csvFullGt, decide_eq_true_eq] at hlt
      obtain ⟨hmem, hmin⟩ := ih y
      refine ⟨?_, ?_⟩
      · rcases List.mem_cons.mp hmem with h | h
        · rw [h]; exact List.mem_cons_of_mem _ (List.mem_cons_self _ _)
        · exact List.mem_cons_of_mem _ (List.mem_cons_of_mem _ h)
      · intro x hx
        rcases List.mem_cons.mp hx with heq | hx2
        · rw [heq]
          have hy := hmin y (List.mem_cons_self _ _)
          constructor
          · rcases hlt with h | ⟨h, _⟩ <;> omega
          · intro hceq
            rcases hlt with h | ⟨h, hnc⟩
            · omega
            · have hys := hy.2 (by omega)
              omega
        · exact hmin x hx2
    · rw [hstep, if_neg hlt]
      rw [csvFullGt, decide_eq_true_eq] at hlt
      push_neg at hlt
      obtain ⟨h1, h2⟩ := hlt
      obtain ⟨hmem, hmin⟩ := ih c
      refine ⟨?_, ?_⟩
      · rcases List.mem_cons.mp hmem with h | h
        · rw [h]; exact List.mem_cons_self _ _
        · exact List.mem_cons_of_mem _ (List.mem_cons_of_mem _ h)
      · intro x hx
        rcases List.mem_cons.mp hx with heq | hx2
        · rw [heq]; exact hmin c (List.mem_cons_self _ _)
        · rcases List.mem_cons.mp hx2 with heq | hx3
          · rw [heq]
            have hc := hmin c (List.mem_cons_self _ _)
            constructor
            · omega
            · intro hyeq
              have hsz := h2 (by omega)
              have hcsz := hc.2 (by omega)
              omega
          · exact hmin x (List.mem_cons_of_mem _ hx3)

theorem pickSmallest_spec :
    ∀ (cs : List CsvInfo) (c : CsvInfo),
      pickSmallest c cs ∈ c :: cs ∧ ∀ x ∈ c :: cs, (pickSmallest c cs).size ≤ x.size := by
  intro cs
  induction cs with
  | nil =>
    intro c
    refine ⟨List.mem_singleton.mpr rfl, ?_⟩
    intro x hx
    rw [List.mem_singleton] at hx
    subst hx
    exact Nat.le_refl _
  | cons y cs ih =>
    intro c
    have hstep : pickSmallest c (y :: cs) =
        pickSmallest (if y.size < c.size then y else c) cs := rfl
    by_cases hlt : y.size < c.size
    · rw [hstep, if_pos hlt]
      obtain ⟨hmem, hmin⟩ := ih y
      refine ⟨?_, ?_⟩
      · rcases List.mem_cons.mp hmem with h | h
        · rw [h]; exact List.mem_cons_of_mem _ (List.mem_cons_self _ _)
        · exact List.mem_cons_of_mem _ (List.mem_cons_of_mem _ h)
      · intro x hx
        rcases List.mem_cons.mp hx with heq | hx2
        · rw [heq]
          have hy := hmin y (List.mem_cons_self _ _)
          omega
        · exact hmin x hx2
    · rw [hstep, if_neg hlt]
      obtain ⟨hmem, hmin⟩ := ih c
      refine ⟨?_, ?_⟩
      · rcases List.mem_cons.mp hmem with h | h
        · rw [h]; exact List.mem_cons_self _ _
        · exact List.mem_cons_of_mem _ (List.mem_cons_of_mem _ h)
      · intro x hx
        rcases List.mem_cons.mp hx with heq | hx2
        · rw [heq]; exact hmin c (List.mem_cons_self _ _)
        · rcases List.mem_cons.mp hx2 with heq | hx3
          · rw [heq]
            have hc := hmin c (List.mem_cons_self _ _)
            omega
          · exact hmin x (List.mem_cons_of_mem _ hx3)

theorem pickLargestLast_spec :
    ∀ (cs : List CsvInfo) (c : CsvInfo),
      pickLargestLast c cs ∈ c :: cs ∧ ∀ x ∈ c :: cs, x.size ≤ (pickLargestLast c cs).size := by
  intro cs
  induction cs with
  | nil =>
    intro c
    refine ⟨List.mem_singleton.mpr rfl, ?_⟩
    intro x hx
    rw [List.mem_singleton] at hx
    subst hx
    exact Nat.le_refl _
  | cons y cs ih =>
    intro c
    have hstep : pickLargestLast c (y :: cs) =
        pickLargestLast (if c.size ≤ y.size then y else c) cs := rfl
    by_cases hlt : c.size ≤ y.size
    · rw [hstep, if_pos hlt]
      obtain ⟨hmem, hmin⟩ := ih y
      refine ⟨?_, ?_⟩
      · rcases List.mem_cons.mp hmem with h | h
        · rw [h]; exact List.mem_cons_of_mem _ (List.mem_cons_self _ _)
        · exact List.mem_cons_of_mem _ (List.mem_cons_of_mem _ h)
      · intro x hx
        rcases List.mem_cons.mp hx with heq | hx2
        · rw [heq]
          have hy := hmin y (List.mem_cons_self _ _)
          omega
        · exact hmin x hx2
    · rw [hstep, if_neg hlt]
      obtain ⟨hmem, hmin⟩ := ih c
      refine ⟨?_, ?_⟩
      · rcases List.mem_cons.mp hmem with h | h
        · rw [h]; exact List.mem_cons_self _ _
        · exact List.mem_cons_of_mem _ (List.mem_cons_of_mem _ h)
      · intro x hx
        rcases List.mem_cons.mp hx with heq | hx2
        · rw [heq]; exact hmin c (List.mem_cons_self _ _)
        · rcases List.mem_cons.mp hx2 with heq | hx3
          · rw [heq]
            have hc := hmin c (List.mem_cons_self _ _)
            omega
          · exact hmin x (List.mem_cons_of_mem _ hx3)

/-- C6: the selected mini has the fewest columns (ties: smallest file); when
a candidate with mini's row count and more columns exists, the selected full
is such a candidate, largest by size (ties: most columns); when none exists,
full is the largest file overall and mini the smallest file overall. -/
theorem C6_discover_csv_pair (c : CsvInfo) (cs : List CsvInfo) :
    ∀ full mini, discover_csv_pair c cs = (full, mini) →
      ((csvFullCandidates (pickCsvMini c cs) (c :: cs) ≠ [] →
          mini = pickCsvMini c cs ∧
          mini ∈ c :: cs ∧
          (∀ x ∈ c :: cs, mini.ncols ≤ x.ncols ∧
            (x.ncols = mini.ncols → mini.size ≤ x.size)) ∧
          full ∈ c :: cs ∧ full.nrows = mini.nrows ∧ mini.ncols < full.ncols ∧
          (∀ x ∈ c :: cs, x.nrows = mini.nrows → mini.ncols < x.ncols →
            x.size ≤ full.size ∧ (x.size = full.size → x.ncols ≤ full.ncols))) ∧
       (csvFullCandidates (pickCsvMini c cs) (c :: cs) = [] →
          full ∈ c :: cs ∧ mini ∈ c :: cs ∧
          ∀ x ∈ c :: cs, mini.size ≤ x.size ∧ x.size ≤ full.size)) := by
  intro full mini hdisc
  simp only [discover_csv_pair] at hdisc
  cases hq : csvFullCandidates (pickCsvMini c cs) (c :: cs) with
  | cons q qs =>
    rw [hq] at hdisc
    simp only [] at hdisc
    rw [Prod.mk.injEq] at hdisc
    obtain ⟨hfull, hmini⟩ := hdisc
    subst hfull
    subst hmini
    constructor
    · intro _
      have hmspec := pickCsvMini_spec cs c
      have hfspec := pickCsvFull_spec qs q
      have hqmem : pickCsvFull q qs ∈ csvFullCandidates (pickCsvMini c cs) (c :: cs) := by
        rw [hq]
        exact hfspec.1
      have hfq := (List.mem_filter.mp hqmem)
      have hfcond := decide_eq_true_eq.mp hfq.2
      refine ⟨rfl, hmspec.1, hmspec.2, hfq.1, hfcond.1, hfcond.2, ?_⟩
      intro x hx hrow hcol
      have hxq : x ∈ csvFullCandidates (pickCsvMini c cs) (c :: cs) := by
        rw [csvFullCandidates, List.mem_filter]
        exact ⟨hx, decide_eq_true_eq.mpr ⟨hrow, hcol⟩⟩
      rw [hq] at hxq
      exact hfspec.2 x hxq
    · intro habs
      exact absurd habs (by simp)
  | nil =>
    rw [hq] at hdisc
    simp only [] at hdisc
    rw [Prod.mk.injEq] at hdisc
    obtain ⟨hfull, hmini⟩ := hdisc
    subst hfull
    subst hmini
    constructor
    · intro habs
      exact absurd rfl habs
    · intro _
      have hsm := pickSmallest_spec cs c
      have hlg := pickLargestLast_spec cs c
      refine ⟨hlg.1, hsm.1, ?_⟩
      intro x hx
      exact ⟨hsm.2 x hx, hlg.2 x hx⟩

theorem C6_witness :
    ((csvFullCandidates (pickCsvMini exCsvFull [exCsvMini])
        (exCsvFull :: [exCsvMini]) ≠ [] →
        exCsvMini = pickCsvMini exCsvFull [exCsvMini] ∧
        exCsvMini ∈ exCsvFull :: [exCsvMini] ∧
        (∀ x ∈ exCsvFull :: [exCsvMini], exCsvMini.ncols ≤ x.ncols ∧
          (x.ncols = exCsvMini.ncols → exCsvMini.size ≤ x.size)) ∧
        exCsvFull ∈ exCsvFull :: [exCsvMini] ∧ exCsvFull.nrows = exCsvMini.nrows ∧
        exCsvMini.ncols < exCsvFull.ncols ∧
        (∀ x ∈ exCsvFull :: [exCsvMini], x.nrows = exCsvMini.nrows →
          exCsvMini.ncols < x.ncols →
          x.size ≤ exCsvFull.size ∧ (x.size = exCsvFull.size → x.ncols ≤ exCsvFull.ncols))) ∧
     (csvFullCandidates (pickCsvMini exCsvFull [exCsvMini])
        (exCsvFull :: [exCsvMini]) = [] →
        exCsvFull ∈ exCsvFull :: [exCsvMini] ∧ exCsvMini ∈ exCsvFull :: [exCsvMini] ∧
        ∀ x ∈ exCsvFull :: [exCsvMini], exCsvMini.size ≤ x.size ∧ x.size ≤ exCsvFull.size)) :=
  C6_discover_csv_pair exCsvFull [exCsvMini] exCsvFull exCsvMini (by decide)
